import Mathlib

/-!
# Verification of the YUNIDA20 mixing-console transport core

Shallow embedding of the playback-position/rate model of
`src/j.s.yunida20_mix/hooks/useDeckAudio.ts` and of the BPM detector
(`detectBpm`).  JavaScript numbers are modelled as rationals (`ℚ`); the
mutable React state of one deck is modelled as an explicit `DeckState`
record, and each command of the hook becomes a state-transformer on it.
-/

namespace Yunida

/-- JavaScript's `%` operator on numbers: the remainder of truncated
division, `a - b * trunc (a / b)` (the sign of the result follows the
dividend). -/
def jsMod (a b : ℚ) : ℚ :=
  a - b * (if a / b < 0 then (⌈a / b⌉ : ℚ) else (⌊a / b⌋ : ℚ))

/-- JavaScript's `Math.round`: rounds to the nearest integer, halves
towards positive infinity, i.e. `⌊x + 1/2⌋`. -/
def jsRound (q : ℚ) : ℤ := ⌊q + 1 / 2⌋

/-- The `while (newPos < 0) newPos += duration` loop of the hook
(`useDeckAudio.ts`, pause / rate-change effect / updateLoop).  The source
runs the loop only under a `duration > 0` guard; the guard is carried in
the condition here so that the recursion terminates on every input. -/
def addUntilNonneg (d p : ℚ) : ℚ :=
  if h : 0 < d ∧ p < 0 then addUntilNonneg d (p + d) else p
termination_by (⌈-p / d⌉).toNat
decreasing_by
  obtain ⟨hd, hp⟩ := h
  have hd0 : d ≠ 0 := ne_of_gt hd
  have key : -(p + d) / d = -p / d - 1 := by field_simp; ring
  have h1 : (0 : ℚ) < -p / d := div_pos (by linarith) hd
  have h2 : (0 : ℤ) < ⌈-p / d⌉ := Int.ceil_pos.mpr h1
  have h3 : ⌈-p / d - (1 : ℚ)⌉ = ⌈-p / d⌉ - 1 := by
    exact_mod_cast Int.ceil_sub_int (-p / d) 1
  rw [key, h3]
  omega

/-- The position normalization used throughout the hook:
`if (duration > 0) { while (newPos < 0) newPos += duration; newPos %= duration }`. -/
def normalizePos (p d : ℚ) : ℚ :=
  if 0 < d then jsMod (addUntilNonneg d p) d else p

lemma addUntilNonneg_of_nonneg (d p : ℚ) (hp : 0 ≤ p) :
    addUntilNonneg d p = p := by
  rw [addUntilNonneg]
  simp [not_lt.mpr hp]

lemma addUntilNonneg_spec (d : ℚ) (hd : 0 < d) (p : ℚ) :
    0 ≤ addUntilNonneg d p ∧ ∃ k : ℕ, addUntilNonneg d p = p + k * d := by
  induction p using addUntilNonneg.induct d with
  | case1 p h ih =>
    obtain ⟨h0, ⟨k, hk⟩⟩ := ih
    rw [addUntilNonneg, dif_pos h]
    exact ⟨h0, ⟨k + 1, by push_cast [hk]; ring⟩⟩
  | case2 p h =>
    rw [addUntilNonneg, dif_neg h]
    have hp : 0 ≤ p := by
      by_contra hneg
      exact h ⟨hd, not_le.mp hneg⟩
    exact ⟨hp, ⟨0, by ring⟩⟩

lemma jsMod_nonneg_bounds (a b : ℚ) (ha : 0 ≤ a) (hb : 0 < b) :
    0 ≤ jsMod a b ∧ jsMod a b < b ∧ ∃ m : ℤ, jsMod a b = a + m * b := by
  have hb0 : b ≠ 0 := ne_of_gt hb
  have hdiv : ¬ a / b < 0 := not_lt.mpr (div_nonneg ha hb.le)
  have hcancel : b * (a / b) = a := by field_simp
  have hfl : ((⌊a / b⌋ : ℚ)) ≤ a / b := Int.floor_le _
  have hfl' : a / b < (⌊a / b⌋ : ℚ) + 1 := Int.lt_floor_add_one _
  have hmul : b * (⌊a / b⌋ : ℚ) ≤ b * (a / b) :=
    mul_le_mul_of_nonneg_left hfl hb.le
  have hmul' : b * (a / b) < b * ((⌊a / b⌋ : ℚ) + 1) :=
    (mul_lt_mul_left hb).mpr hfl'
  unfold jsMod
  rw [if_neg hdiv]
  refine ⟨by nlinarith, by nlinarith, ⟨-⌊a / b⌋, by push_cast; ring⟩⟩

/-- Spec of the source normalization: for positive duration it produces a
value in `[0, duration)` that differs from the input by an integer
multiple of the duration. -/
lemma normalizePos_spec (p d : ℚ) (hd : 0 < d) :
    0 ≤ normalizePos p d ∧ normalizePos p d < d ∧
      ∃ m : ℤ, normalizePos p d = p + m * d := by
  obtain ⟨h0, k, hk⟩ := addUntilNonneg_spec d hd p
  obtain ⟨j0, j1, m, hm⟩ := jsMod_nonneg_bounds (addUntilNonneg d p) d h0 hd
  unfold normalizePos
  rw [if_pos hd]
  exact ⟨j0, j1, ⟨k + m, by rw [hm, hk]; push_cast; ring⟩⟩

/-- The normalization picks the unique representative in `[0, d)` of the
input modulo `d`. -/
lemma normalizePos_eq_of (p d q : ℚ) (hd : 0 < d) (h0 : 0 ≤ q) (h1 : q < d)
    (hm : ∃ m : ℤ, q = p + m * d) : normalizePos p d = q := by
  obtain ⟨n0, n1, m₀, hm₀⟩ := normalizePos_spec p d hd
  obtain ⟨m, hq⟩ := hm
  have hdiff : normalizePos p d - q = ((m₀ - m : ℤ) : ℚ) * d := by
    rw [hm₀, hq]; push_cast; ring
  have hlt : ((m₀ - m : ℤ) : ℚ) * d < 1 * d := by rw [one_mul]; linarith
  have hgt : (-1 : ℚ) * d < ((m₀ - m : ℤ) : ℚ) * d := by
    rw [neg_one_mul]; linarith
  have hlt' : ((m₀ - m : ℤ) : ℚ) < 1 := (mul_lt_mul_right hd).mp hlt
  have hgt' : (-1 : ℚ) < ((m₀ - m : ℤ) : ℚ) := (mul_lt_mul_right hd).mp hgt
  have h2 : (-1 : ℤ) < m₀ - m := by exact_mod_cast hgt'
  have h3 : (m₀ - m : ℤ) < 1 := by exact_mod_cast hlt'
  have h4 : m₀ = m := by omega
  rw [hm₀, hq, h4]

/-- A value already in `[0, d)` is fixed by the normalization. -/
lemma normalizePos_eq_self (p d : ℚ) (hd : 0 < d) (h0 : 0 ≤ p) (h1 : p < d) :
    normalizePos p d = p :=
  normalizePos_eq_of p d p hd h0 h1 ⟨0, by ring⟩

/-! ## Deck state (the React state of `useDeckAudio`) -/

/-- `FXType` of `useDeckAudio.ts`. -/
inductive FXType where
  | NONE | ECHO | REVERB | FLANGER
deriving DecidableEq

/-- The state of one deck: the `useState` values of `useDeckAudio`
together with the mutable refs that drive the position model
(`startTimeRef`, `pauseTimeRef`, `lastPlaybackRateRef`, `tapTimesRef`).
`isLoaded` stands in for the presence of a decoded `audioBuffer`. -/
structure DeckState where
  isPlaying : Bool
  isLooping : Bool
  isReverse : Bool
  duration : ℚ
  currentTime : ℚ
  pitch : ℚ
  bend : ℚ
  syncRate : ℚ
  isWidePitch : Bool
  hotCues : List (Option ℚ)
  isLoaded : Bool
  bpm : ℚ
  isBpmAnalyzing : Bool
  activeFX : FXType
  fxWet : ℚ
  startTime : ℚ
  pauseTime : ℚ
  lastPlaybackRate : ℚ
  tapTimes : List ℚ
deriving DecidableEq

/-- Line 26 of the hook:
`playbackRate = (pitch + bend + (syncRate - 1)) * (isReverse ? -1 : 1)`. -/
def playbackRate (s : DeckState) : ℚ :=
  (s.pitch + s.bend + (s.syncRate - 1)) * (if s.isReverse then -1 else 1)

/-- `toggleReverse`: flips the `isReverse` flag. -/
def toggleReverse (s : DeckState) : DeckState :=
  { s with isReverse := !s.isReverse }

/-- The rate-change `useEffect` (lines 154–179): while playing, computes
the position with the previous rate, normalizes it, re-anchors
(`pauseTimeRef ← newPos`, `startTimeRef ← now`); in every case records the
current composed rate in `lastPlaybackRateRef`. -/
def rateChangeEffect (now : ℚ) (s : DeckState) : DeckState :=
  if s.isPlaying then
    { s with
        pauseTime :=
          normalizePos (s.pauseTime + (now - s.startTime) * s.lastPlaybackRate)
            s.duration,
        startTime := now,
        lastPlaybackRate := playbackRate s }
  else { s with lastPlaybackRate := playbackRate s }

/-- The success path of `loadFile` (lines 229–263): stops playback, sets
the pending BPM 128 and the analyzing flag, installs the new duration and
resets position, hot cues, sync ratio and the reverse flag.  Fields it
does not touch (pitch, bend, looping, FX, wet) keep their prior values. -/
def loadFileSuccess (dur : ℚ) (s : DeckState) : DeckState :=
  { s with
      isPlaying := false,
      bpm := 128,
      isBpmAnalyzing := true,
      duration := dur,
      isLoaded := true,
      currentTime := 0,
      pauseTime := 0,
      hotCues := [none, none, none],
      syncRate := 1,
      isReverse := false,
      lastPlaybackRate := 1 }

/-- `play` (lines 265–286): no-op without a loaded buffer; otherwise
computes `offset = pauseTime % duration`, fixes a negative offset, starts
the source at that offset and sets `startTimeRef = now - startOffset`.
`pauseTimeRef` is NOT changed. -/
def play (now : ℚ) (s : DeckState) : DeckState :=
  if s.isLoaded then
    let offset := jsMod s.pauseTime s.duration
    let startOffset := if offset < 0 then s.duration + offset else offset
    { s with startTime := now - startOffset, isPlaying := true }
  else s

/-- `pause` (lines 288–309): while playing, freezes the normalized
computed position into `pauseTimeRef` and clears the playing flag. -/
def pause (now : ℚ) (s : DeckState) : DeckState :=
  if s.isPlaying then
    { s with
        pauseTime :=
          normalizePos (s.pauseTime + (now - s.startTime) * playbackRate s)
            s.duration,
        isPlaying := false }
  else s

/-- `seek` (lines 326–332): pause if playing, store the raw target time
in `pauseTimeRef` and `currentTime`, resume if it was playing. -/
def seek (now t : ℚ) (s : DeckState) : DeckState :=
  let s1 := if s.isPlaying then pause now s else s
  let s2 := { s1 with pauseTime := t, currentTime := t }
  if s.isPlaying then play now s2 else s2

/-- `syncToBpm` (lines 334–339): no-op at BPM 0, otherwise sets the sync
ratio to `target / bpm` and resets pitch to 1. -/
def syncToBpm (target : ℚ) (s : DeckState) : DeckState :=
  if s.bpm = 0 then s
  else { s with syncRate := target / s.bpm, pitch := 1 }

/-- The position reported by the `updateLoop` effect (lines 378–398):
while playing, the normalized `pauseTime + (now - startTime) * rate`;
while paused, `pauseTimeRef` itself. -/
def updateLoopTime (now : ℚ) (s : DeckState) : ℚ :=
  if s.isPlaying then
    normalizePos (s.pauseTime + (now - s.startTime) * playbackRate s) s.duration
  else s.pauseTime

lemma playbackRate_toggle (s : DeckState) :
    playbackRate (toggleReverse s) = -playbackRate s := by
  unfold playbackRate toggleReverse
  cases s.isReverse <;> simp

/-- Consecutive differences of a list, as built by the
`for (let i = 1; i < times.length; i++)` loops of `tapBpm` and
`detectBpm`. -/
def diffs : List ℚ → List ℚ
  | a :: b :: rest => (b - a) :: diffs (b :: rest)
  | _ => []

/-- `tapBpm` (lines 209–227): a tap more than 2000 ms after the previous
one restarts the history with just itself; otherwise the tap is appended,
the buffer trimmed to the most recent 4, and once ≥ 2 taps are buffered
the BPM becomes `60000 / mean(intervals)` rounded to one decimal. -/
def tapBpm (now : ℚ) (s : DeckState) : DeckState :=
  if s.tapTimes ≠ [] ∧ 2000 < now - s.tapTimes.getLastD 0 then
    { s with tapTimes := [now] }
  else
    let ts0 := s.tapTimes ++ [now]
    let ts := if 4 < ts0.length then ts0.tail else ts0
    if 2 ≤ ts.length then
      let ivs := diffs ts
      let avg := ivs.sum / (ivs.length : ℚ)
      { s with tapTimes := ts, bpm := (jsRound (60000 / avg * 10) : ℚ) / 10 }
    else { s with tapTimes := ts }

/-- The initial deck state: the initial values of every `useState` and
ref of the hook. -/
def baseDeck : DeckState :=
  { isPlaying := false, isLooping := false, isReverse := false,
    duration := 0, currentTime := 0, pitch := 1, bend := 0, syncRate := 1,
    isWidePitch := false, hotCues := [none, none, none], isLoaded := false,
    bpm := 128, isBpmAnalyzing := false, activeFX := FXType.NONE, fxWet := 0,
    startTime := 0, pauseTime := 0, lastPlaybackRate := 1, tapTimes := [] }

/-- Key algebraic fact about the normalization: normalizing, adding an
offset and normalizing again agrees with normalizing the plain sum. -/
lemma normalizePos_normalizePos_add (d a b q : ℚ) (hd : 0 < d) (h0 : 0 ≤ q)
    (h1 : q < d) (hq : ∃ m : ℤ, q = a + b + m * d) :
    normalizePos (normalizePos a d + b) d = q := by
  obtain ⟨_, _, m₀, hm₀⟩ := normalizePos_spec a d hd
  obtain ⟨m, hm⟩ := hq
  apply normalizePos_eq_of _ _ _ hd h0 h1
  exact ⟨m - m₀, by rw [hm₀, hm]; push_cast; ring⟩

/-! ## Claim theorems -/

/-- C1: for every pitch, bend, syncRate and reverse flag the composed
playback rate is `(pitch + bend + (syncRate - 1))` multiplied by `-1`
when reverse is set and by `1` otherwise, and `toggleReverse` flips
exactly this sign while leaving pitch, bend and syncRate untouched. -/
theorem playbackRate_composition (s : DeckState) :
    playbackRate s
        = (s.pitch + s.bend + (s.syncRate - 1)) *
            (if s.isReverse then -1 else 1) ∧
    playbackRate (toggleReverse s) = -playbackRate s ∧
    (toggleReverse s).pitch = s.pitch ∧
    (toggleReverse s).bend = s.bend ∧
    (toggleReverse s).syncRate = s.syncRate :=
  ⟨rfl, playbackRate_toggle s, rfl, rfl, rfl⟩

/-- C2: for every positive duration, every rate (negative included) and
every elapsed time, the position `anchor + elapsed * rate` normalized by
the loop `while p < 0 do p += duration; p %= duration` lies in
`[0, duration)`. -/
theorem sampleClock_position_in_range (p0 elapsed r d : ℚ) (hd : 0 < d) :
    0 ≤ normalizePos (p0 + elapsed * r) d ∧
      normalizePos (p0 + elapsed * r) d < d :=
  ⟨(normalizePos_spec _ d hd).1, (normalizePos_spec _ d hd).2.1⟩

theorem sampleClock_position_in_range_witness :
    (0 : ℚ) < 5 ∧
      (0 ≤ normalizePos (-7 + 3 * (-2)) 5 ∧ normalizePos (-7 + 3 * (-2)) 5 < 5) :=
  ⟨by norm_num, sampleClock_position_in_range (-7) 3 (-2) 5 (by norm_num)⟩

/-- A deck with a 100-second track loaded, paused at position 10 with
all rate factors at their defaults (composed rate 1). -/
def resumeDemo : DeckState :=
  { baseDeck with isLoaded := true, duration := 100, pauseTime := 10 }

/-- C3 (refuting evaluation): resuming from a pause at position 10 with
rate 1 makes the position model report 20, not 10, at the resume instant,
because `play` sets `startTime = now - startOffset` while `pauseTime`
keeps the frozen position, so the offset is counted twice. -/
theorem play_resume_shifts_position :
    resumeDemo.pauseTime = 10 ∧ updateLoopTime 0 (play 0 resumeDemo) = 20 := by
  refine ⟨rfl, ?_⟩
  have hmod : jsMod (10 : ℚ) 100 = 10 := by norm_num [jsMod]
  unfold play
  norm_num [resumeDemo, baseDeck, hmod]
  unfold updateLoopTime playbackRate
  norm_num
  exact normalizePos_eq_self 20 100 (by norm_num) (by norm_num) (by norm_num)

/-- A paused deck with a 100-second track loaded. -/
def loadedDemo : DeckState :=
  { baseDeck with isLoaded := true, duration := 100 }

/-- C4 counterexample: on a paused deck with duration 100, `seek (-5)`
makes the reported position -5, which is outside `[0, duration)` — the
raw seek argument is stored without normalization while paused. -/
theorem seek_paused_escapes_range :
    updateLoopTime 0 (seek 0 (-5) loadedDemo) = -5 ∧
      ¬ 0 ≤ updateLoopTime 0 (seek 0 (-5) loadedDemo) := by
  have h : updateLoopTime 0 (seek 0 (-5) loadedDemo) = -5 := by
    unfold seek updateLoopTime
    norm_num [loadedDemo, baseDeck]
  exact ⟨h, by rw [h]; norm_num⟩

/-- C4 (amended): with a track of positive duration loaded, the reported
position stays in `[0, duration)` whenever the deck is playing; while
paused, `seek time` stores and reports the raw `time` argument, so the
invariant holds after a paused seek only for in-range arguments. -/
theorem position_range_while_playing (now t : ℚ) (s : DeckState)
    (hd : 0 < s.duration) :
    (s.isPlaying = true →
      0 ≤ updateLoopTime now s ∧ updateLoopTime now s < s.duration) ∧
    (s.isPlaying = false → updateLoopTime now (seek now t s) = t) := by
  constructor
  · intro hp
    unfold updateLoopTime
    rw [if_pos hp]
    exact ⟨(normalizePos_spec _ _ hd).1, (normalizePos_spec _ _ hd).2.1⟩
  · intro hp
    unfold seek updateLoopTime
    simp [hp]

/-- A playing deck with a 100-second track loaded. -/
def playingDemo : DeckState :=
  { baseDeck with isLoaded := true, duration := 100, isPlaying := true }

theorem position_range_while_playing_witness :
    ((playingDemo.isPlaying = true →
        0 ≤ updateLoopTime 3 playingDemo ∧
          updateLoopTime 3 playingDemo < playingDemo.duration) ∧
     (playingDemo.isPlaying = false →
        updateLoopTime 3 (seek 3 42 playingDemo) = 42)) :=
  position_range_while_playing 3 42 playingDemo
    (by norm_num [playingDemo, baseDeck])

/-- C5: on a playing deck at a normalized position, toggling reverse,
waiting `dt`, toggling back and waiting another `dt` returns the
position model exactly to the starting position (each rate change
re-anchors at the position computed with the previous rate). -/
theorem toggleReverse_twice_returns (s : DeckState) (dt : ℚ)
    (hplay : s.isPlaying = true) (hd : 0 < s.duration)
    (h0 : 0 ≤ s.pauseTime) (h1 : s.pauseTime < s.duration) :
    updateLoopTime (s.startTime + 2 * dt)
      (rateChangeEffect (s.startTime + dt)
        (toggleReverse (rateChangeEffect s.startTime (toggleReverse s))))
      = s.pauseTime := by
  cases hrev : s.isReverse <;>
  · simp [updateLoopTime, rateChangeEffect, toggleReverse, playbackRate,
      hplay, hrev]
    rw [normalizePos_eq_self s.pauseTime s.duration hd h0 h1]
    exact normalizePos_normalizePos_add s.duration _ _ _ hd h0 h1 ⟨0, by ring⟩

/-- A playing deck at position 10 of a 100-second track. -/
def reverseDemo : DeckState :=
  { baseDeck with
    isLoaded := true, duration := 100, isPlaying := true, pauseTime := 10 }

theorem toggleReverse_twice_returns_witness :
    updateLoopTime (reverseDemo.startTime + 2 * 7)
      (rateChangeEffect (reverseDemo.startTime + 7)
        (toggleReverse (rateChangeEffect reverseDemo.startTime
          (toggleReverse reverseDemo))))
      = reverseDemo.pauseTime :=
  toggleReverse_twice_returns reverseDemo 7 rfl
    (by norm_num [reverseDemo, baseDeck])
    (by norm_num [reverseDemo, baseDeck])
    (by norm_num [reverseDemo, baseDeck])

/-- A deck with non-default pitch and an active effect, about to load. -/
def pitchyDemo : DeckState :=
  { baseDeck with pitch := 2, activeFX := FXType.ECHO }

/-- C6 counterexample: a successful load does NOT reset pitch (default 1)
or the active effect (default NONE): both keep their prior values. -/
theorem loadFile_keeps_pitch :
    (loadFileSuccess 100 pitchyDemo).pitch = 2 ∧ (2 : ℚ) ≠ 1 ∧
    (loadFileSuccess 100 pitchyDemo).activeFX = FXType.ECHO ∧
    FXType.ECHO ≠ FXType.NONE :=
  ⟨rfl, by norm_num, rfl, by decide⟩

/-- C6 (amended): a successful load resets position, hot cues, sync
ratio, the reverse flag and the playing flag, and sets BPM to the
pending default 128 with analysis running — while pitch, bend, looping,
active effect and wet amount keep their prior values. -/
theorem loadFile_reset_fields (d : ℚ) (s : DeckState) :
    (loadFileSuccess d s).isPlaying = false ∧
    (loadFileSuccess d s).currentTime = 0 ∧
    (loadFileSuccess d s).pauseTime = 0 ∧
    (loadFileSuccess d s).hotCues = [none, none, none] ∧
    (loadFileSuccess d s).syncRate = 1 ∧
    (loadFileSuccess d s).isReverse = false ∧
    (loadFileSuccess d s).bpm = 128 ∧
    (loadFileSuccess d s).isBpmAnalyzing = true ∧
    (loadFileSuccess d s).duration = d ∧
    (loadFileSuccess d s).pitch = s.pitch ∧
    (loadFileSuccess d s).bend = s.bend ∧
    (loadFileSuccess d s).isLooping = s.isLooping ∧
    (loadFileSuccess d s).activeFX = s.activeFX ∧
    (loadFileSuccess d s).fxWet = s.fxWet :=
  ⟨rfl, rfl, rfl, rfl, rfl, rfl, rfl, rfl, rfl, rfl, rfl, rfl, rfl, rfl⟩

/-- C7: with non-zero BPM, `syncToBpm target` sets the sync ratio to
`target / bpm` and resets pitch to 1 (so the composed rate equals the
sync ratio when bend is 0 and reverse is off, and `syncToBpm 140` at BPM
128 yields ratio 1.09375); with BPM 0 it leaves the whole state
unchanged. -/
theorem syncToBpm_spec (s : DeckState) (target : ℚ) :
    (s.bpm ≠ 0 →
      (syncToBpm target s).syncRate = target / s.bpm ∧
      (syncToBpm target s).pitch = 1 ∧
      (syncToBpm target s).bend = s.bend ∧
      (syncToBpm target s).isReverse = s.isReverse ∧
      (s.bend = 0 → s.isReverse = false →
        playbackRate (syncToBpm target s) = target / s.bpm)) ∧
    (s.bpm = 128 → (syncToBpm 140 s).syncRate = 1.09375) ∧
    (s.bpm = 0 → syncToBpm target s = s) := by
  refine ⟨?_, ?_, ?_⟩
  · intro hb
    unfold syncToBpm
    rw [if_neg hb]
    refine ⟨rfl, rfl, rfl, rfl, ?_⟩
    intro hbend hrev
    unfold playbackRate
    simp only [hrev, ite_false]
    show (1 + s.bend + (target / s.bpm - 1)) * 1 = target / s.bpm
    rw [hbend]; ring
  · intro h128
    unfold syncToBpm
    rw [if_neg (by rw [h128]; norm_num)]
    show (140 : ℚ) / s.bpm = 1.09375
    rw [h128]; norm_num
  · intro hb
    unfold syncToBpm
    rw [if_pos hb]

/-- A deck whose BPM has been detected as 128. -/
def syncDemo : DeckState := baseDeck

theorem syncToBpm_spec_witness :
    (syncDemo.bpm = 128 → (syncToBpm 140 syncDemo).syncRate = 1.09375) ∧
    ((syncToBpm 140 syncDemo).syncRate = 140 / syncDemo.bpm ∧
      (syncToBpm 140 syncDemo).pitch = 1) := by
  have h := syncToBpm_spec syncDemo 140
  have hb : syncDemo.bpm ≠ 0 := by norm_num [syncDemo, baseDeck]
  exact ⟨h.2.1, (h.1 hb).1, (h.1 hb).2.1⟩

/-- C8: within a 2000 ms gap, a tap is appended and the buffer trimmed to
the most recent 4 timestamps; with ≥ 2 taps buffered the BPM becomes
`60000 / mean(intervals)` rounded to one decimal (4 taps at 500 ms
spacing give 120.0); a tap after a gap over 2000 ms restarts the history
with just itself and leaves the BPM unchanged, as does a lone first
tap. -/
theorem tapBpm_spec (s : DeckState) (now : ℚ) (hlen : s.tapTimes.length ≤ 4) :
    (s.tapTimes ≠ [] → 2000 < now - s.tapTimes.getLastD 0 →
      (tapBpm now s).tapTimes = [now] ∧ (tapBpm now s).bpm = s.bpm) ∧
    (¬(s.tapTimes ≠ [] ∧ 2000 < now - s.tapTimes.getLastD 0) →
      (tapBpm now s).tapTimes
          = (s.tapTimes ++ [now]).drop ((s.tapTimes ++ [now]).length - 4) ∧
      (2 ≤ (tapBpm now s).tapTimes.length →
        (tapBpm now s).bpm
            = (jsRound (60000 /
                ((diffs (tapBpm now s).tapTimes).sum /
                  ((diffs (tapBpm now s).tapTimes).length : ℚ)) * 10) : ℚ) / 10) ∧
      ((tapBpm now s).tapTimes.length < 2 → (tapBpm now s).bpm = s.bpm)) ∧
    (s.tapTimes = [] →
      (tapBpm 1500 (tapBpm 1000 (tapBpm 500 (tapBpm 0 s)))).bpm = 120 ∧
      (tapBpm 1500 (tapBpm 1000 (tapBpm 500 (tapBpm 0 s)))).tapTimes
          = [0, 500, 1000, 1500]) := by
  refine ⟨?_, ?_, ?_⟩
  · intro h1 h2
    unfold tapBpm
    rw [if_pos ⟨h1, h2⟩]
    exact ⟨rfl, rfl⟩
  · intro hA
    unfold tapBpm
    rw [if_neg hA]
    by_cases h4 : 4 < (s.tapTimes ++ [now]).length
    · have h5 : (s.tapTimes ++ [now]).length = 5 := by
        simp only [List.length_append, List.length_singleton] at h4 ⊢
        omega
      have htl : ((s.tapTimes ++ [now]).tail).length = 4 := by
        rw [List.length_tail, h5]
      simp only [h4, if_true, ite_true]
      rw [if_pos (by rw [htl]; norm_num)]
      refine ⟨?_, fun _ => rfl, ?_⟩
      · rw [h5]
        exact (List.drop_one _).symm
      · intro hcontra
        rw [htl] at hcontra
        omega
    · have hz : (s.tapTimes ++ [now]).length - 4 = 0 := by omega
      simp only [h4, if_false, ite_false]
      rw [hz, List.drop_zero]
      by_cases h2 : 2 ≤ (s.tapTimes ++ [now]).length
      · rw [if_pos h2]
        refine ⟨rfl, fun _ => rfl, ?_⟩
        intro hcontra
        simp only [List.length_append, List.length_singleton] at hcontra h2
        omega
      · rw [if_neg h2]
        refine ⟨rfl, ?_, fun _ => rfl⟩
        intro hcontra
        simp only [List.length_append, List.length_singleton] at hcontra h2
        omega
  · intro hnil
    constructor <;>
      norm_num [tapBpm, diffs, jsRound, hnil, List.getLastD]

theorem tapBpm_spec_witness :
    (tapBpm 1500 (tapBpm 1000 (tapBpm 500 (tapBpm 0 baseDeck)))).bpm = 120 ∧
    (tapBpm 1500 (tapBpm 1000 (tapBpm 500 (tapBpm 0 baseDeck)))).tapTimes
        = [0, 500, 1000, 1500] :=
  (tapBpm_spec baseDeck 0 (by norm_num [baseDeck])).2.2 rfl

/-! ## BPM detector (`detectBpm` of `src/unnamed/part_000`)

The detector first renders a low-pass-filtered slice of the track through
an `OfflineAudioContext`; that rendering is environment code outside the
repository, so the embedding starts from the filtered sample data (`data`
in the source) and models everything from the peak-detection step on.
The surrounding `try/catch` is modelled by `detectBpm` taking an
`Option`: `none` stands for a processing step having thrown. -/

/-- The sparse maximum-amplitude scan:
`for (let i = 0; i < data.length; i += 1000) ...` taking the largest
`Math.abs(data[i])`. -/
def maxAmpOf (data : List ℚ) : ℚ :=
  ((List.range ((data.length + 999) / 1000)).map (· * 1000)).foldl
    (fun m i => if |data.getD i 0| > m then |data.getD i 0| else m) 0

/-- One step of the peak-picking loop: a sample above the threshold is
accepted as a peak only when more than `minDist` samples have passed
since the last accepted peak. -/
def peakStep (threshold minDist : ℚ) (acc : List ℚ × ℚ) (p : ℕ × ℚ) :
    List ℚ × ℚ :=
  if p.2 > threshold ∧ (p.1 : ℚ) - acc.2 > minDist then
    (acc.1 ++ [(p.1 : ℚ)], (p.1 : ℚ))
  else acc

/-- The peak-picking loop of `detectBpm`; `lastPeak` starts at
`-minDistance`. -/
def peaksOf (data : List ℚ) (threshold minDist : ℚ) : List ℚ :=
  (data.enum.foldl (peakStep threshold minDist) ([], -minDist)).1

/-- The distinct keys of the interval histogram, in ascending order
(JavaScript object iteration visits integer-like keys in ascending
numeric order). -/
def histKeys (l : List ℚ) : List ℚ := l.toFinset.sort (· ≤ ·)

/-- The `maxCount` / `bestInterval` fold over the histogram: strict
`count > maxCount` starting from `(0, 0)`, so the smallest key with the
maximal count wins. -/
def bestIntervalOf (l : List ℚ) : ℚ :=
  ((histKeys l).foldl
    (fun acc k => if l.count k > acc.2 then (k, l.count k) else acc)
    ((0 : ℚ), (0 : ℕ))).1

/-- `threshold = maxAmp * 0.35`. -/
def thresholdOf (data : List ℚ) : ℚ := maxAmpOf data * 0.35

/-- The peaks detected on the filtered slice
(`minDistance = 0.3 * sampleRate`). -/
def peaksFound (data : List ℚ) (sampleRate : ℚ) : List ℚ :=
  peaksOf data (thresholdOf data) (0.3 * sampleRate)

/-- The inter-peak intervals rounded to the nearest 500 samples:
`Math.round(interval / 500) * 500`. -/
def roundedIntervals (data : List ℚ) (sampleRate : ℚ) : List ℚ :=
  (diffs (peaksFound data sampleRate)).map
    (fun iv => (jsRound (iv / 500) : ℚ) * 500)

/-- The dominant (most frequent) rounded interval. -/
def bestIntervalFound (data : List ℚ) (sampleRate : ℚ) : ℚ :=
  bestIntervalOf (roundedIntervals data sampleRate)

/-- The `while (bpm < 70) bpm *= 2` octave-folding loop.  The recursion
carries a positivity guard for termination; the source loop does not
terminate on non-positive values, which cannot reach it behind the
non-zero dominant-interval guard. -/
def doubleBelow70 (b : ℚ) : ℚ :=
  if h : 0 < b ∧ b < 70 then doubleBelow70 (2 * b) else b
termination_by (⌈70 / b⌉).toNat
decreasing_by
  obtain ⟨hb, hb70⟩ := h
  have hq : (1 : ℚ) < 70 / b := (one_lt_div hb).mpr hb70
  have hc2 : (2 : ℤ) ≤ ⌈70 / b⌉ := by
    have h1 : (1 : ℤ) < ⌈70 / b⌉ := by
      exact_mod_cast lt_of_lt_of_le hq (Int.le_ceil _)
    omega
  have key : 70 / (2 * b) = 70 / b / 2 := by
    rw [div_div]; ring_nf
  have hle : 70 / (2 * b) ≤ ((⌈70 / b⌉ - 1 : ℤ) : ℚ) := by
    rw [key]
    have h1 : 70 / b ≤ (⌈70 / b⌉ : ℚ) := Int.le_ceil _
    have h2 : ((2 : ℤ) : ℚ) ≤ (⌈70 / b⌉ : ℚ) := by exact_mod_cast hc2
    push_cast
    linarith
  have hfin : ⌈70 / (2 * b)⌉ ≤ ⌈70 / b⌉ - 1 := Int.ceil_le.mpr hle
  omega

/-- The `while (bpm > 180) bpm /= 2` octave-folding loop. -/
def halveAbove180 (b : ℚ) : ℚ :=
  if h : 180 < b then halveAbove180 (b / 2) else b
termination_by (⌈b⌉).toNat
decreasing_by
  have h1 : b / 2 ≤ b - 90 := by linarith
  have h2 : ⌈b - (90 : ℚ)⌉ = ⌈b⌉ - 90 := by
    exact_mod_cast Int.ceil_sub_int b 90
  have h3 : ⌈b / 2⌉ ≤ ⌈b⌉ - 90 := h2 ▸ Int.ceil_mono h1
  have h4 : (180 : ℤ) < ⌈b⌉ := by
    have : (180 : ℚ) < (⌈b⌉ : ℚ) := lt_of_lt_of_le h (Int.le_ceil b)
    exact_mod_cast this
  omega

/-- The tail of `detectBpm` after the offline filtering: peak picking,
the under-10-peaks fallback, the histogram, the zero-interval fallback,
and BPM conversion with octave folding and rounding. -/
def detectBpmCore (data : List ℚ) (sampleRate : ℚ) : ℚ :=
  if (peaksFound data sampleRate).length < 10 then 128
  else if bestIntervalFound data sampleRate = 0 then 128
  else
    (jsRound (halveAbove180 (doubleBelow70
        (60 / (bestIntervalFound data sampleRate / sampleRate)))) : ℚ)

/-- `detectBpm` with its `try/catch`: a failed processing pipeline
(`none`) yields the fallback 128 instead of propagating the error. -/
def detectBpm : Option (List ℚ) → ℚ → ℚ
  | none, _ => 128
  | some data, sampleRate => detectBpmCore data sampleRate

lemma doubleBelow70_ge (b : ℚ) : 0 < b → 70 ≤ doubleBelow70 b := by
  induction b using doubleBelow70.induct with
  | case1 b h ih =>
    intro _
    rw [doubleBelow70, dif_pos h]
    exact ih (by linarith [h.1])
  | case2 b h =>
    intro hb
    rw [doubleBelow70, dif_neg h]
    push_neg at h
    exact h hb

lemma halveAbove180_bounds (b : ℚ) :
    70 ≤ b → 70 ≤ halveAbove180 b ∧ halveAbove180 b ≤ 180 := by
  induction b using halveAbove180.induct with
  | case1 b h ih =>
    intro _
    rw [halveAbove180, dif_pos h]
    exact ih (by linarith)
  | case2 b h =>
    intro hb
    rw [halveAbove180, dif_neg h]
    exact ⟨hb, by linarith [not_lt.mp h]⟩

lemma jsRound_range (x : ℚ) (h1 : 70 ≤ x) (h2 : x ≤ 180) :
    (70 : ℤ) ≤ jsRound x ∧ jsRound x ≤ 180 := by
  unfold jsRound
  constructor
  · exact Int.le_floor.mpr (by push_cast; linarith)
  · have h3 : ⌊x + 1 / 2⌋ < 181 := Int.floor_lt.mpr (by push_cast; linarith)
    omega

lemma peaksOf_fold_chain (threshold minDist : ℚ) (hmd : 0 ≤ minDist)
    (l : List (ℕ × ℚ)) :
    ∀ (acc : List ℚ) (lp : ℚ),
      List.Chain' (fun a b => minDist < b - a) acc →
      (∀ x ∈ acc, x ≤ lp) →
      List.Chain' (fun a b => minDist < b - a)
          (l.foldl (peakStep threshold minDist) (acc, lp)).1 ∧
      ∀ x ∈ (l.foldl (peakStep threshold minDist) (acc, lp)).1,
          x ≤ (l.foldl (peakStep threshold minDist) (acc, lp)).2 := by
  induction l with
  | nil =>
    intro acc lp hc hle
    exact ⟨hc, hle⟩
  | cons p tl ih =>
    intro acc lp hc hle
    simp only [List.foldl_cons]
    unfold peakStep
    by_cases hcond : p.2 > threshold ∧ (p.1 : ℚ) - lp > minDist
    · rw [if_pos hcond]
      apply ih
      · rw [List.chain'_append]
        refine ⟨hc, List.chain'_singleton _, ?_⟩
        intro x hx y hy
        obtain ⟨hne, hxeq⟩ := List.mem_getLast?_eq_getLast hx
        have hxmem : x ∈ acc := hxeq ▸ List.getLast_mem hne
        have hxlp : x ≤ lp := hle x hxmem
        have hyi : (p.1 : ℚ) = y := by simpa using hy
        rw [← hyi]
        have := hcond.2
        linarith
      · intro x hx
        rcases List.mem_append.mp hx with hmem | hmem
        · have h1 : x ≤ lp := hle x hmem
          have h2 := hcond.2
          linarith
        · have : x = (p.1 : ℚ) := by simpa using hmem
          exact this.le
    · rw [if_neg hcond]
      exact ih acc lp hc hle

lemma peaksOf_chain (data : List ℚ) (threshold minDist : ℚ)
    (hmd : 0 ≤ minDist) :
    List.Chain' (fun a b => minDist < b - a) (peaksOf data threshold minDist) :=
  (peaksOf_fold_chain threshold minDist hmd data.enum [] (-minDist)
    List.chain'_nil (by simp)).1

lemma diffs_of_chain (c : ℚ) :
    ∀ (l : List ℚ), List.Chain' (fun a b => c < b - a) l →
      ∀ iv ∈ diffs l, c < iv := by
  intro l
  induction l with
  | nil =>
    intro _ iv hiv
    simp [diffs] at hiv
  | cons a t ih =>
    intro hch iv hiv
    cases t with
    | nil => simp [diffs] at hiv
    | cons b t' =>
      rw [List.chain'_cons] at hch
      have heq : diffs (a :: b :: t') = (b - a) :: diffs (b :: t') := rfl
      rw [heq, List.mem_cons] at hiv
      rcases hiv with rfl | hmem
      · exact hch.1
      · exact ih hch.2 iv hmem

lemma bestIntervalOf_nonneg (l : List ℚ) (h : ∀ k ∈ l, 0 ≤ k) :
    0 ≤ bestIntervalOf l := by
  unfold bestIntervalOf
  have hkeys : ∀ k ∈ histKeys l, 0 ≤ k := by
    intro k hk
    exact h k (List.mem_toFinset.mp ((Finset.mem_sort _).mp hk))
  have main : ∀ (ks : List ℚ), (∀ k ∈ ks, 0 ≤ k) → ∀ acc : ℚ × ℕ,
      0 ≤ acc.1 →
      0 ≤ (ks.foldl
        (fun acc k => if l.count k > acc.2 then (k, l.count k) else acc)
        acc).1 := by
    intro ks
    induction ks with
    | nil =>
      intro _ acc hacc
      exact hacc
    | cons k ks ih =>
      intro hks acc hacc
      simp only [List.foldl_cons]
      apply ih (fun x hx => hks x (List.mem_cons_of_mem _ hx))
      split
      · exact hks k (List.mem_cons_self _ _)
      · exact hacc
  exact main (histKeys l) hkeys ((0 : ℚ), (0 : ℕ)) le_rfl

lemma roundedIntervals_nonneg (data : List ℚ) (sr : ℚ) (hsr : 0 < sr) :
    ∀ k ∈ roundedIntervals data sr, 0 ≤ k := by
  intro k hk
  unfold roundedIntervals peaksFound at hk
  rcases List.mem_map.mp hk with ⟨iv, hiv, rfl⟩
  have hmd : (0 : ℚ) < 0.3 * sr := by
    have : (0 : ℚ) < 0.3 := by norm_num
    positivity
  have hivpos : 0.3 * sr < iv :=
    diffs_of_chain _ _ (peaksOf_chain data _ _ hmd.le) iv hiv
  have h0 : (0 : ℚ) < iv := lt_trans hmd hivpos
  have hjr : (0 : ℤ) ≤ jsRound (iv / 500) := by
    unfold jsRound
    exact Int.floor_nonneg.mpr (by positivity)
  have : (0 : ℚ) ≤ (jsRound (iv / 500) : ℚ) := by exact_mod_cast hjr
  exact mul_nonneg this (by norm_num)

lemma bestIntervalFound_nonneg (data : List ℚ) (sr : ℚ) (hsr : 0 < sr) :
    0 ≤ bestIntervalFound data sr :=
  bestIntervalOf_nonneg _ (roundedIntervals_nonneg data sr hsr)

/-- C9: `detectBpm` returns exactly 128 whenever fewer than 10 peaks are
found in the filtered slice, and whenever any processing step fails
(the `catch` branch); it never propagates an error. -/
theorem detectBpm_fallback_128 (data : List ℚ) (sampleRate : ℚ) :
    ((peaksFound data sampleRate).length < 10 →
      detectBpmCore data sampleRate = 128) ∧
    detectBpm none sampleRate = 128 := by
  constructor
  · intro h
    unfold detectBpmCore
    rw [if_pos h]
  · rfl

theorem detectBpm_fallback_128_witness :
    (peaksFound [] 44100).length < 10 ∧ detectBpmCore [] 44100 = 128 ∧
      detectBpm none 44100 = 128 := by
  have h : (peaksFound [] 44100).length < 10 := by decide
  exact ⟨h, (detectBpm_fallback_128 [] 44100).1 h,
    (detectBpm_fallback_128 [] 44100).2⟩

/-- C10: past both fallbacks (≥ 10 peaks and a non-zero dominant
interval), the result equals `60 / (dominantInterval / sampleRate)`
folded into range by the doubling/halving loops and rounded — a whole
number in the canonical range 70–180. -/
theorem detectBpm_normalized_range (data : List ℚ) (sampleRate : ℚ)
    (hsr : 0 < sampleRate)
    (hp : 10 ≤ (peaksFound data sampleRate).length)
    (hb : bestIntervalFound data sampleRate ≠ 0) :
    detectBpmCore data sampleRate
        = (jsRound (halveAbove180 (doubleBelow70
            (60 / (bestIntervalFound data sampleRate / sampleRate)))) : ℚ) ∧
    70 ≤ detectBpmCore data sampleRate ∧
    detectBpmCore data sampleRate ≤ 180 ∧
    ∃ n : ℤ, detectBpmCore data sampleRate = (n : ℚ) := by
  have hbest : 0 < bestIntervalFound data sampleRate :=
    lt_of_le_of_ne (bestIntervalFound_nonneg data sampleRate hsr) (Ne.symm hb)
  have hpos : 0 < 60 / (bestIntervalFound data sampleRate / sampleRate) :=
    div_pos (by norm_num) (div_pos hbest hsr)
  have h70 := doubleBelow70_ge _ hpos
  have hbounds := halveAbove180_bounds _ h70
  have hjr := jsRound_range _ hbounds.1 hbounds.2
  have heq : detectBpmCore data sampleRate
      = (jsRound (halveAbove180 (doubleBelow70
          (60 / (bestIntervalFound data sampleRate / sampleRate)))) : ℚ) := by
    unfold detectBpmCore
    rw [if_neg (not_lt.mpr hp), if_neg hb]
  refine ⟨heq, ?_, ?_, ⟨_, heq⟩⟩
  · rw [heq]; exact_mod_cast hjr.1
  · rw [heq]; exact_mod_cast hjr.2

/-- One 250-sample block of the concrete test slice: 249 zeros followed
by a unit spike. -/
def beatBlock : List ℚ := List.replicate 249 0 ++ [1]

/-- A 2500-sample filtered slice with unit spikes at indices
249, 499, …, 2499: ten peaks 250 samples apart. -/
def beatData : List ℚ :=
  beatBlock ++ (beatBlock ++ (beatBlock ++ (beatBlock ++ (beatBlock ++
    (beatBlock ++ (beatBlock ++ (beatBlock ++ (beatBlock ++ beatBlock))))))))

lemma maxAmpOf_nonneg (data : List ℚ) : 0 ≤ maxAmpOf data := by
  unfold maxAmpOf
  have main : ∀ (l : List ℕ) (m : ℚ), 0 ≤ m →
      0 ≤ l.foldl
        (fun m i => if |data.getD i 0| > m then |data.getD i 0| else m) m := by
    intro l
    induction l with
    | nil =>
      intro m hm
      exact hm
    | cons i l ih =>
      intro m hm
      simp only [List.foldl_cons]
      apply ih
      split
      · exact abs_nonneg _
      · exact hm
  exact main _ 0 le_rfl

lemma maxAmpOf_le_one (data : List ℚ) (h : ∀ x ∈ data, |x| ≤ 1) :
    maxAmpOf data ≤ 1 := by
  unfold maxAmpOf
  have hgetD : ∀ i : ℕ, |data.getD i 0| ≤ 1 := by
    intro i
    rw [List.getD_eq_getElem?_getD]
    cases hx : data[i]? with
    | none => simp
    | some x =>
      simp only [Option.getD_some]
      exact h x (List.getElem?_mem hx)
  have main : ∀ (l : List ℕ) (m : ℚ), m ≤ 1 →
      l.foldl
        (fun m i => if |data.getD i 0| > m then |data.getD i 0| else m) m ≤ 1 := by
    intro l
    induction l with
    | nil =>
      intro m hm
      exact hm
    | cons i l ih =>
      intro m hm
      simp only [List.foldl_cons]
      apply ih
      split
      · exact hgetD i
      · exact hm
  exact main _ 0 (by norm_num)

lemma peaksFold_zeros (θ md : ℚ) (hθ : 0 ≤ θ) (z : ℕ) :
    ∀ (n : ℕ) (st : List ℚ × ℚ),
      (List.enumFrom n (List.replicate z (0 : ℚ))).foldl (peakStep θ md) st
        = st := by
  induction z with
  | zero =>
    intro n st
    rfl
  | succ z ih =>
    intro n st
    rw [List.replicate_succ, List.enumFrom_cons, List.foldl_cons]
    have hstep : peakStep θ md st (n, 0) = st := by
      unfold peakStep
      rw [if_neg]
      intro hc
      exact absurd hc.1 (not_lt.mpr hθ)
    rw [hstep]
    exact ih _ _

lemma peaksFold_block (θ md : ℚ) (hθ0 : 0 ≤ θ) (hθ1 : θ < 1) (n m : ℕ)
    (hm : m = n + 249) (acc : List ℚ) (lp : ℚ)
    (hgap : md < (m : ℚ) - lp) :
    (List.enumFrom n beatBlock).foldl (peakStep θ md) (acc, lp)
      = (acc ++ [(m : ℚ)], (m : ℚ)) := by
  unfold beatBlock
  rw [List.enumFrom_append, List.foldl_append, peaksFold_zeros θ md hθ0,
    List.length_replicate, List.enumFrom_cons, List.foldl_cons]
  have hstep : peakStep θ md (acc, lp) (n + 249, 1) = (acc ++ [(m : ℚ)], (m : ℚ)) := by
    unfold peakStep
    rw [if_pos ⟨hθ1, by rw [hm] at hgap; exact_mod_cast hgap⟩]
    rw [hm]
  rw [hstep]
  rfl

lemma beatData_abs_le_one : ∀ x ∈ beatData, |x| ≤ 1 := by
  intro x hx
  have hx01 : x = 0 ∨ x = 1 := by
    simp only [beatData, beatBlock, List.mem_append, List.mem_replicate,
      List.mem_singleton] at hx
    tauto
  rcases hx01 with rfl | rfl <;> norm_num

lemma peaksFound_beatData :
    peaksFound beatData 500
      = [((249 : ℕ) : ℚ), ((499 : ℕ) : ℚ), ((749 : ℕ) : ℚ), ((999 : ℕ) : ℚ),
         ((1249 : ℕ) : ℚ), ((1499 : ℕ) : ℚ), ((1749 : ℕ) : ℚ),
         ((1999 : ℕ) : ℚ), ((2249 : ℕ) : ℚ), ((2499 : ℕ) : ℚ)] := by
  unfold peaksFound peaksOf
  set θ := thresholdOf beatData with hθdef
  have hθ0 : 0 ≤ θ := mul_nonneg (maxAmpOf_nonneg _) (by norm_num)
  have hθ1 : θ < 1 := by
    have h1 : maxAmpOf beatData ≤ 1 := maxAmpOf_le_one _ beatData_abs_le_one
    have h0 : 0 ≤ maxAmpOf beatData := maxAmpOf_nonneg _
    rw [hθdef]
    unfold thresholdOf
    nlinarith
  have hsplit : beatData
      = beatBlock ++ (beatBlock ++ (beatBlock ++ (beatBlock ++ (beatBlock ++
          (beatBlock ++ (beatBlock ++ (beatBlock ++ (beatBlock ++ beatBlock)))))))) :=
    rfl
  have hlen : beatBlock.length = 250 := by
    rw [beatBlock, List.length_append, List.length_replicate,
      List.length_singleton]
  rw [show beatData.enum = List.enumFrom 0 beatData from rfl]
  rw [hsplit]
  rw [List.enumFrom_append, List.foldl_append, hlen,
    peaksFold_block θ (0.3 * 500) hθ0 hθ1 0 249 (by norm_num) _ _ (by norm_num)]
  rw [List.enumFrom_append, List.foldl_append, hlen,
    peaksFold_block θ (0.3 * 500) hθ0 hθ1 (0 + 250) 499 (by norm_num) _ _
      (by push_cast; norm_num)]
  rw [List.enumFrom_append, List.foldl_append, hlen,
    peaksFold_block θ (0.3 * 500) hθ0 hθ1 (0 + 250 + 250) 749 (by norm_num) _ _
      (by push_cast; norm_num)]
  rw [List.enumFrom_append, List.foldl_append, hlen,
    peaksFold_block θ (0.3 * 500) hθ0 hθ1 (0 + 250 + 250 + 250) 999
      (by norm_num) _ _ (by push_cast; norm_num)]
  rw [List.enumFrom_append, List.foldl_append, hlen,
    peaksFold_block θ (0.3 * 500) hθ0 hθ1 (0 + 250 + 250 + 250 + 250) 1249
      (by norm_num) _ _ (by push_cast; norm_num)]
  rw [List.enumFrom_append, List.foldl_append, hlen,
    peaksFold_block θ (0.3 * 500) hθ0 hθ1 (0 + 250 + 250 + 250 + 250 + 250) 1499
      (by norm_num) _ _ (by push_cast; norm_num)]
  rw [List.enumFrom_append, List.foldl_append, hlen,
    peaksFold_block θ (0.3 * 500) hθ0 hθ1 (0 + 250 + 250 + 250 + 250 + 250 + 250)
      1749 (by norm_num) _ _ (by push_cast; norm_num)]
  rw [List.enumFrom_append, List.foldl_append, hlen,
    peaksFold_block θ (0.3 * 500) hθ0 hθ1
      (0 + 250 + 250 + 250 + 250 + 250 + 250 + 250) 1999 (by norm_num) _ _
      (by push_cast; norm_num)]
  rw [List.enumFrom_append, List.foldl_append, hlen,
    peaksFold_block θ (0.3 * 500) hθ0 hθ1
      (0 + 250 + 250 + 250 + 250 + 250 + 250 + 250 + 250) 2249 (by norm_num) _ _
      (by push_cast; norm_num)]
  rw [peaksFold_block θ (0.3 * 500) hθ0 hθ1
      (0 + 250 + 250 + 250 + 250 + 250 + 250 + 250 + 250 + 250) 2499
      (by norm_num) _ _ (by push_cast; norm_num)]
  simp

lemma bestIntervalFound_beatData : bestIntervalFound beatData 500 = 500 := by
  unfold bestIntervalFound roundedIntervals
  rw [peaksFound_beatData]
  have hdiffs : diffs
      [((249 : ℕ) : ℚ), ((499 : ℕ) : ℚ), ((749 : ℕ) : ℚ), ((999 : ℕ) : ℚ),
       ((1249 : ℕ) : ℚ), ((1499 : ℕ) : ℚ), ((1749 : ℕ) : ℚ),
       ((1999 : ℕ) : ℚ), ((2249 : ℕ) : ℚ), ((2499 : ℕ) : ℚ)]
      = List.replicate 9 (250 : ℚ) := by
    norm_num [diffs, List.replicate_succ]
  rw [hdiffs]
  have hround : (jsRound ((250 : ℚ) / 500) : ℚ) * 500 = 500 := by
    unfold jsRound
    norm_num
  have hmap : (List.replicate 9 (250 : ℚ)).map
      (fun iv => (jsRound (iv / 500) : ℚ) * 500) = List.replicate 9 (500 : ℚ) := by
    simp only [List.map_replicate, hround]
  rw [hmap]
  unfold bestIntervalOf histKeys
  have hfin : (List.replicate 9 (500 : ℚ)).toFinset = {500} := by
    rw [List.toFinset_replicate_of_ne_zero]
    norm_num
  rw [hfin, Finset.sort_singleton]
  have hcount : (List.replicate 9 (500 : ℚ)).count 500 = 9 :=
    List.count_replicate_self 500 9
  simp only [List.foldl_cons, List.foldl_nil, hcount]
  norm_num

theorem detectBpm_normalized_range_witness :
    (0 : ℚ) < 500 ∧ 10 ≤ (peaksFound beatData 500).length ∧
    bestIntervalFound beatData 500 ≠ 0 ∧
    (70 ≤ detectBpmCore beatData 500 ∧ detectBpmCore beatData 500 ≤ 180) := by
  have h1 : 10 ≤ (peaksFound beatData 500).length := by
    rw [peaksFound_beatData]
    simp
  have h2 : bestIntervalFound beatData 500 ≠ 0 := by
    rw [bestIntervalFound_beatData]
    norm_num
  have h := detectBpm_normalized_range beatData 500 (by norm_num) h1 h2
  exact ⟨by norm_num, h1, h2, h.2.1, h.2.2.1⟩

end Yunida
